import Mathlib

/-!
Verification of the goteststats time-attribution engine (main.go).

The Go program is a single-threaded state machine over two maps of pointers
to mutable RunningTest records.  We embed it with an explicit heap: records
live in a list indexed by allocation address, and the two maps (allTests and
runningTests) are association lists from test name to heap address, so that
Go pointer aliasing (parent and children references, map overwrites) is
represented faithfully.  Durations are unbounded integers of nanoseconds;
Go integer division truncates toward zero and panics on a zero divisor, so
every division site returns in an Except monad, as do the panic sites of
the handlers.
-/

/-- One record of the Go RunningTest struct; children and parent hold heap
addresses in place of Go pointers. -/
structure RunningTest where
  name : String
  pkg : String
  lastTimestamp : Int
  adjustedTime : Int
  totalTime : Int
  children : List Nat
  parent : Option Nat
  assumedStopped : Bool
  parallel : Bool
deriving DecidableEq

/-- The record a dangling heap read yields; reachable states never read out
of bounds, the default only makes lookups total. -/
def emptyTest : RunningTest :=
  { name := "", pkg := "", lastTimestamp := 0, adjustedTime := 0, totalTime := 0,
    children := [], parent := none, assumedStopped := false, parallel := false }

/-- Action tags of the go test -json event stream recognised by main. -/
inductive GoAction where
  | run | pause | cont | pass | skip | output | start
  | other (tag : String)
deriving DecidableEq

/-- One decoded input event (timestamp in nanoseconds). -/
structure Event where
  time : Int
  action : GoAction
  test : String
  pkg : String
deriving DecidableEq

/-- Global state of the program: the allocation heap plus the two name-keyed
registries allTests and runningTests, and the warnings printed so far. -/
structure St where
  heap : List RunningTest
  all : List (String × Nat)
  running : List (String × Nat)
  warnings : List String
deriving DecidableEq

def initSt : St := { heap := [], all := [], running := [], warnings := [] }

/-- Fatal outcomes: the panic sites of main.go plus the runtime panic of an
integer division by zero. -/
inductive GoFatal where
  | parentNotFound (test : String)
  | multipleChildren (parent : String)
  | noChildren (parent : String)
  | unknownAction (tag : String)
  | divideByZero
deriving DecidableEq

/-- Association-list lookup, modelling a Go map read. -/
def lookupA : List (String × Nat) → String → Option Nat
  | [], _ => none
  | (k, v) :: rest, key => if k = key then some v else lookupA rest key

/-- Association-list insert, modelling a Go map write: an existing binding is
replaced in place, a new key is appended. -/
def insertA : List (String × Nat) → String → Nat → List (String × Nat)
  | [], key, v => [(key, v)]
  | (k, w) :: rest, key, v =>
    if k = key then (key, v) :: rest else (k, w) :: insertA rest key v

/-- Association-list removal, modelling a Go map delete. -/
def eraseA : List (String × Nat) → String → List (String × Nat)
  | [], _ => []
  | (k, w) :: rest, key => if k = key then rest else (k, w) :: eraseA rest key

def keysA (l : List (String × Nat)) : List String := l.map Prod.fst

/-- Read a record through a heap address (a Go pointer dereference). -/
def getR (st : St) (a : Nat) : RunningTest := st.heap.getD a emptyTest

/-- Mutate the record behind a heap address (a Go pointer write). -/
def modifyR (st : St) (a : Nat) (f : RunningTest → RunningTest) : St :=
  { st with heap := st.heap.set a (f (getR st a)) }

/-- The Perl whitespace class of the Go regexp escape for spaces. -/
def goIsSpace (c : Char) : Bool :=
  c = ' ' || c = '\t' || c = '\n' || c = '\x0c' || c = '\r'

/-- Split a character list at its rightmost slash that still has a non-empty
suffix, returning the parts before and after that slash.  This is the greedy
backtracking behaviour of the anchored Go regexp group before the slash. -/
def splitLastSlash : List Char → Option (List Char × List Char)
  | [] => none
  | c :: rest =>
    match splitLastSlash rest with
    | some (p, l) => some (c :: p, l)
    | none => if c = '/' && !rest.isEmpty then some ([], rest) else none

/-- The isSubTest function of main.go: matching the subtest regexp yields the
capture before the last usable slash, whitespace anywhere defeats the match,
and both sides of the slash must be non-empty. -/
def isSubTest (test : String) : Option String :=
  if test.data.any goIsSpace then none
  else
    match splitLastSlash test.data with
    | some (p, _) => if p.isEmpty then none else some (String.mk p)
    | none => none

/-- Insertion step of the length-descending sort main.go performs on all test
names before the ancestor search. -/
def insertByLenDesc (n : String) : List String → List String
  | [] => [n]
  | m :: rest =>
    if n.length > m.length then n :: m :: rest else m :: insertByLenDesc n rest

def sortByLenDesc : List String → List String
  | [] => []
  | n :: rest => insertByLenDesc n (sortByLenDesc rest)

/-- The fallback ancestor search of handleRun: the longest known name that,
followed by a slash, is a prefix of the subtest name. -/
def longestSlashAncestor (names : List String) (test : String) : Option String :=
  (sortByLenDesc names).find? (fun n => (n ++ "/").isPrefixOf test)

/-- Number of running tests not assumed stopped: the fair-share divisor. -/
def nonDormantRunningCount (st : St) : Nat :=
  st.running.countP (fun e => !(getR st e.2).assumedStopped)

/-- The updateExecutionTimesWithCount function: no-op on a dormant record,
otherwise add the truncated fair share of the elapsed interval to the
adjusted time, the whole interval to the total time, and move the record's
clock to the event time.  Go would panic dividing by a zero count. -/
def updateExecutionTimesWithCount (r : RunningTest) (t : Int) (count : Nat) :
    Except GoFatal RunningTest :=
  if r.assumedStopped then .ok r
  else if count = 0 then .error .divideByZero
  else .ok { r with
    adjustedTime := r.adjustedTime + (t - r.lastTimestamp).tdiv (count : Int),
    totalTime := r.totalTime + (t - r.lastTimestamp),
    lastTimestamp := t }

/-- The updateExecutionTimes function: the single-record update whose divisor
is recomputed from the current running set. -/
def updateExecutionTimes (st : St) (a : Nat) (t : Int) : Except GoFatal St :=
  match updateExecutionTimesWithCount (getR st a) t (nonDormantRunningCount st) with
  | .error f => .error f
  | .ok r' => .ok { st with heap := st.heap.set a r' }

/-- Loop body of updateRunningTests over the fixed entry list. -/
def updateRunningTestsAux (t : Int) (count : Nat) :
    List (String × Nat) → St → Except GoFatal St
  | [], st => .ok st
  | e :: rest, st =>
    match updateExecutionTimesWithCount (getR st e.2) t count with
    | .error f => .error f
    | .ok r' => updateRunningTestsAux t count rest { st with heap := st.heap.set e.2 r' }

/-- The updateRunningTests function: compute the non-dormant divisor once and
apply the uniform advance to every running record. -/
def updateRunningTests (st : St) (t : Int) : Except GoFatal St :=
  updateRunningTestsAux t (nonDormantRunningCount st) st.running st

/-- The per-record update loop of handleCont, which recomputes the divisor at
each record exactly as the Go loop calling updateExecutionTimes does. -/
def contLoopAux (t : Int) : List (String × Nat) → St → Except GoFatal St
  | [], st => .ok st
  | e :: rest, st =>
    match updateExecutionTimes st e.2 t with
    | .error f => .error f
    | .ok st' => contLoopAux t rest st'

/-- The fresh record handleRun allocates for the event's test. -/
def newTest (e : Event) : RunningTest :=
  { name := e.test, pkg := e.pkg, lastTimestamp := e.time, adjustedTime := 0,
    totalTime := 0, children := [], parent := none, assumedStopped := false,
    parallel := false }

/-- Drop the first occurrence of an address from a children list: the
pointer-identity removal loop of handleStop. -/
def removeFirstAddr : List Nat → Nat → List Nat
  | [], _ => []
  | c :: rest, a => if c = a then rest else c :: removeFirstAddr rest a

/-- The stopSibling function of main.go.  The walk climbs the parent chain of
the potential sibling; the chain strictly descends in allocation order in
every reachable state, so heap size is enough fuel, and exhausted fuel is
reported as no sibling found.  On success the running sibling is advanced
one last time, marked assumed-stopped, and the new test is adopted by the
matched ancestor and inserted into the running set. -/
def stopSibling (e : Event) (rtAddr : Nat) (parent : String) (childAddr : Nat) :
    Nat → St → Nat → Except GoFatal (Option St)
  | 0, _, _ => .ok none
  | fuel + 1, st, psAddr =>
    match (getR st psAddr).parent with
    | none => .ok none
    | some pp =>
      if (getR st pp).name = parent && !(getR st rtAddr).parallel
          && !(getR st rtAddr).assumedStopped then
        match updateExecutionTimes st rtAddr e.time with
        | .error f => .error f
        | .ok st1 =>
          let st2 := modifyR st1 rtAddr (fun r => { r with assumedStopped := true })
          let st3 := modifyR st2 childAddr (fun r => { r with parent := some pp })
          let st4 := modifyR st3 pp (fun r => { r with children := r.children ++ [childAddr] })
          .ok (some { st4 with running := insertA st4.running e.test childAddr })
      else if (getR st pp).parent.isSome then
        stopSibling e rtAddr parent childAddr fuel st pp
      else .ok none

/-- The loop of handleRun over running tests that tries stopSibling on each
entry and stops at the first success. -/
def siblingLoop (e : Event) (parent : String) (childAddr : Nat) (st : St) :
    List (String × Nat) → Except GoFatal (Option St)
  | [] => .ok none
  | entry :: rest =>
    match stopSibling e entry.2 parent childAddr st.heap.length st entry.2 with
    | .error f => .error f
    | .ok (some st') => .ok (some st')
    | .ok none => siblingLoop e parent childAddr st rest

/-- The handleRun function: allocate the record, resolve the parent of a
subtest name (falling back to the longest-prefix search over all known
names, with the dead emptiness check kept as in the source), then either
attach to a running parent, displace a serial sibling, or advance everyone
and join the running set. -/
def handleRun (st0 : St) (e : Event) : Except GoFatal St :=
  let addr := st0.heap.length
  let st : St := { st0 with heap := st0.heap ++ [newTest e],
                            all := insertA st0.all e.test addr }
  match isSubTest e.test with
  | none =>
    match updateRunningTests st e.time with
    | .error f => .error f
    | .ok st' => .ok { st' with running := insertA st'.running e.test addr }
  | some parent0 =>
    let resolved : Except GoFatal String :=
      match lookupA st.all parent0 with
      | some _ => .ok parent0
      | none =>
        let parent1 :=
          match longestSlashAncestor (keysA st.all) e.test with
          | some n => n
          | none => parent0
        if parent1 = "" then .error (.parentNotFound e.test) else .ok parent1
    match resolved with
    | .error f => .error f
    | .ok parent =>
      match lookupA st.running parent with
      | some paddr =>
        let st1 := modifyR st addr (fun r => { r with parent := some paddr })
        let st2 := modifyR st1 paddr (fun r => { r with children := r.children ++ [addr] })
        if (getR st2 paddr).children.length = 1 then
          match updateExecutionTimes st2 paddr e.time with
          | .error f => .error f
          | .ok st3 =>
            let st4 := { st3 with running := eraseA st3.running (getR st3 paddr).name }
            .ok { st4 with running := insertA st4.running e.test addr }
        else .error (.multipleChildren (getR st2 paddr).name)
      | none =>
        match siblingLoop e parent addr st st.running with
        | .error f => .error f
        | .ok (some st') => .ok st'
        | .ok none =>
          match updateRunningTests st e.time with
          | .error f => .error f
          | .ok st' => .ok { st' with running := insertA st'.running e.test addr }

/-- The handlePause function: an unknown test is only warned about; a known
one is flagged parallel and not assumed stopped before the uniform advance,
then removed from the running set. -/
def handlePause (st : St) (e : Event) : Except GoFatal St :=
  match lookupA st.running e.test with
  | none =>
    .ok { st with warnings :=
      st.warnings ++ ["WARNING: Paused test not found in running tests: " ++ e.test] }
  | some a =>
    let st1 := modifyR st a (fun r => { r with parallel := true, assumedStopped := false })
    match updateRunningTests st1 e.time with
    | .error f => .error f
    | .ok st2 => .ok { st2 with running := eraseA st2.running e.test }

/-- The handleCont function: an unknown test is only warned about; otherwise
every running record is advanced before the resuming test rejoins with its
clock reset to the event time and its dormancy cleared. -/
def handleCont (st : St) (e : Event) : Except GoFatal St :=
  match lookupA st.all e.test with
  | none =>
    .ok { st with warnings :=
      st.warnings ++ ["WARNING: Continued test not found in tests: " ++ e.test] }
  | some a =>
    match contLoopAux e.time st.running st with
    | .error f => .error f
    | .ok st1 =>
      let st2 := modifyR st1 a (fun r => { r with lastTimestamp := e.time, assumedStopped := false })
      .ok { st2 with running := insertA st2.running e.test a }

/-- The handleStop function, shared by pass and skip events: an unknown test
is only warned about; a child detaches from its parent, resuming the parent
when it was the last child, and a parentless test triggers a uniform
advance; either way the test leaves the running set. -/
def handleStop (st : St) (e : Event) : Except GoFatal St :=
  match lookupA st.running e.test with
  | none =>
    .ok { st with warnings :=
      st.warnings ++ ["WARNING: Stopped test not found in running tests: " ++ e.test] }
  | some a =>
    match (getR st a).parent with
    | some p =>
      if (getR st p).children.length = 0 then
        .error (.noChildren (getR st p).name)
      else if (getR st p).children.length = 1 then
        match updateExecutionTimes st a e.time with
        | .error f => .error f
        | .ok st1 =>
          let st2 := modifyR st1 p (fun r => { r with children := [] })
          let st3 := { st2 with running := insertA st2.running (getR st2 p).name p }
          let st4 := modifyR st3 p (fun r => { r with lastTimestamp := e.time })
          .ok { st4 with running := eraseA st4.running e.test }
      else
        match (if (getR st a).assumedStopped then Except.ok st else updateRunningTests st e.time) with
        | .error f => .error f
        | .ok st1 =>
          let st2 := modifyR st1 p (fun r => { r with children := removeFirstAddr r.children a })
          .ok { st2 with running := eraseA st2.running e.test }
    | none =>
      match updateRunningTests st e.time with
      | .error f => .error f
      | .ok st1 => .ok { st1 with running := eraseA st1.running e.test }

/-- The dispatch of the main read loop: events without a test name and the
output and start tags are skipped, unknown tags are fatal. -/
def processEvent (st : St) (e : Event) : Except GoFatal St :=
  if e.test = "" then .ok st
  else
    match e.action with
    | .run => handleRun st e
    | .pause => handlePause st e
    | .cont => handleCont st e
    | .pass => handleStop st e
    | .skip => handleStop st e
    | .output => .ok st
    | .start => .ok st
    | .other tag => .error (.unknownAction tag)

/-- The whole input stream, processed in order; a fatal outcome aborts. -/
def processEvents : List Event → St → Except GoFatal St
  | [], st => .ok st
  | e :: rest, st =>
    match processEvent st e with
    | .error f => .error f
    | .ok st' => processEvents rest st'

/-! Report generator of main. -/

/-- The configured number of slowest tests to list. -/
def resultsToList : Nat := 50

/-- Adjusted time of a test name as the report comparator reads it. -/
def adjOf (st : St) (k : String) : Int :=
  (getR st ((lookupA st.all k).getD 0)).adjustedTime

/-- Insertion step of the adjusted-time-descending sort over test names. -/
def insertByAdjDesc (st : St) (k : String) : List String → List String
  | [] => [k]
  | m :: rest =>
    if adjOf st k > adjOf st m then k :: m :: rest else m :: insertByAdjDesc st k rest

def sortedTestNames (st : St) : List String :=
  (keysA st.all).foldr (insertByAdjDesc st) []

/-- The top slice of the sorted names that main prints. -/
def selectedTestNames (st : St) : List String :=
  (sortedTestNames st).take resultsToList

/-- Nanoseconds in the millisecond granularity the report rounds to. -/
def msNanos : Int := 1000000

/-- The Go Duration.Round: round to the nearest multiple of m, halves away
from zero (the int64 overflow clamps of the library do not arise over
unbounded integers and are omitted). -/
def durRound (d m : Int) : Int :=
  if m ≤ 0 then d
  else if d < 0 then
    (let r := -(Int.tmod d m); if r + r < m then d + r else d - m + r)
  else
    (let r := Int.tmod d m; if r + r < m then d - r else d + m - r)

/-- Go integer division: truncation toward zero, panic on zero divisor. -/
def goDiv (a b : Int) : Except GoFatal Int :=
  if b = 0 then .error .divideByZero else .ok (a.tdiv b)

/-- One printed result line: either the single rounded time, or both times
with the implied concurrency factor. -/
inductive ReportLine where
  | single (pkg name : String) (adjusted : Int)
  | withTotal (pkg name : String) (adjusted total factor : Int)
deriving DecidableEq

/-- The record the report reads for a selected test name. -/
def recOf (st : St) (k : String) : RunningTest :=
  getR st ((lookupA st.all k).getD 0)

/-- The line main prints for one selected test: both rounded times and their
quotient when they differ after rounding, the single time otherwise. -/
def reportLineFor (st : St) (k : String) : Except GoFatal ReportLine :=
  let r := recOf st k
  let adjR := durRound r.adjustedTime msNanos
  let totR := durRound r.totalTime msNanos
  if adjR = totR then .ok (.single r.pkg r.name adjR)
  else
    match goDiv totR adjR with
    | .error f => .error f
    | .ok q => .ok (.withTotal r.pkg r.name adjR totR q)

def reportLinesAux (st : St) : List String → Except GoFatal (List ReportLine)
  | [] => .ok []
  | k :: rest =>
    match reportLineFor st k with
    | .error f => .error f
    | .ok line =>
      match reportLinesAux st rest with
      | .error f => .error f
      | .ok lines => .ok (line :: lines)

/-- The final report: one line per selected test, in order. -/
def reportLines (st : St) : Except GoFatal (List ReportLine) :=
  reportLinesAux st (selectedTestNames st)

/-! Heap access lemmas. -/

theorem getD_set_self {α : Type} {l : List α} {i : Nat} (h : i < l.length) (a d : α) :
    (l.set i a).getD i d = a := by
  simp [List.getD_eq_getElem?_getD, List.getElem?_set_self h]

theorem getD_set_ne {α : Type} {l : List α} {i j : Nat} (h : i ≠ j) (a d : α) :
    (l.set i a).getD j d = l.getD j d := by
  simp [List.getD_eq_getElem?_getD, List.getElem?_set_ne h]

theorem getD_mem {α : Type} {l : List α} {i : Nat} (h : i < l.length) (d : α) :
    l.getD i d ∈ l := by
  simp only [List.getD_eq_getElem?_getD, List.getElem?_eq_getElem h, Option.getD_some]
  exact List.getElem_mem h

theorem getR_mem {st : St} {a : Nat} (h : a < st.heap.length) : getR st a ∈ st.heap :=
  getD_mem h emptyTest

/-! Facts about the arithmetic core of the attribution engine. -/

/-- A successful timed update never touches the identity, structure or flag
fields of a record. -/
theorem updWC_frame {r : RunningTest} {t : Int} {c : Nat} {r' : RunningTest}
    (h : updateExecutionTimesWithCount r t c = .ok r') :
    r'.name = r.name ∧ r'.pkg = r.pkg ∧ r'.children = r.children ∧
    r'.parent = r.parent ∧ r'.assumedStopped = r.assumedStopped ∧
    r'.parallel = r.parallel := by
  unfold updateExecutionTimesWithCount at h
  split at h
  · cases h; simp
  · split at h
    · cases h
    · cases h; simp

/-- Case analysis of a successful timed update: a dormant record is returned
unchanged, otherwise the divisor is nonzero and the three time fields move
as the source writes them. -/
theorem updWC_cases {r : RunningTest} {t : Int} {c : Nat} {r' : RunningTest}
    (h : updateExecutionTimesWithCount r t c = .ok r') :
    (r.assumedStopped = true ∧ r' = r) ∨
    (r.assumedStopped = false ∧ c ≠ 0 ∧
      r' = { r with
        adjustedTime := r.adjustedTime + (t - r.lastTimestamp).tdiv (c : Int),
        totalTime := r.totalTime + (t - r.lastTimestamp),
        lastTimestamp := t }) := by
  unfold updateExecutionTimesWithCount at h
  split at h
  · cases h; left; constructor <;> simp_all
  · split at h
    · cases h
    · cases h; right; refine ⟨by simp_all, by assumption, rfl⟩


/-! A generic preservation principle: any per-record predicate closed under
every record transformation the handlers perform is an invariant of the
whole event step.  The invariant ranges over the heap, i.e. over every
record ever allocated. -/

def HeapInv (P : RunningTest → Prop) (heap : List RunningTest) : Prop := ∀ r ∈ heap, P r

theorem heapInv_set {P : RunningTest → Prop} {l : List RunningTest} {a : Nat}
    {r' : RunningTest} (hinv : HeapInv P l) (h2 : a < l.length → P r') :
    HeapInv P (l.set a r') := by
  intro r hr
  by_cases hl : a < l.length
  · rcases List.mem_or_eq_of_mem_set hr with h | h
    · exact hinv r h
    · exact h ▸ h2 hl
  · rw [List.set_eq_of_length_le (Nat.le_of_not_lt hl)] at hr
    exact hinv r hr

theorem heapInv_modifyR {P : RunningTest → Prop} (st : St) (a : Nat)
    (f : RunningTest → RunningTest) (hinv : HeapInv P st.heap)
    (h2 : a < st.heap.length → P (f (getR st a))) :
    HeapInv P (modifyR st a f).heap :=
  heapInv_set hinv h2

/-- Closure hypotheses: one per kind of record mutation appearing in the
handlers of an event.  The dormancy marking may assume the record is not
parallel, because stopSibling guards it so. -/
structure StepClosed (P : RunningTest → Prop) (e : Event) : Prop where
  upd : ∀ r c r', P r → updateExecutionTimesWithCount r e.time c = .ok r' → P r'
  isNew : P (newTest e)
  pauseFlags : ∀ r, P r → P { r with parallel := true, assumedStopped := false }
  contFlags : ∀ r, P r → P { r with lastTimestamp := e.time, assumedStopped := false }
  dormant : ∀ r, P r → r.parallel = false → P { r with assumedStopped := true }
  setParent : ∀ r p, P r → P { r with parent := p }
  setChildren : ∀ r cs, P r → P { r with children := cs }
  setLast : ∀ r, P r → P { r with lastTimestamp := e.time }

theorem heapInv_updAux {P : RunningTest → Prop} {e : Event} (hc : StepClosed P e)
    (count : Nat) :
    ∀ (entries : List (String × Nat)) (st st' : St), HeapInv P st.heap →
      updateRunningTestsAux e.time count entries st = .ok st' → HeapInv P st'.heap
  | [], st, st', hinv, h => by
    simp only [updateRunningTestsAux] at h
    cases h; exact hinv
  | p :: rest, st, st', hinv, h => by
    simp only [updateRunningTestsAux] at h
    split at h
    · cases h
    · rename_i r' hr'
      exact heapInv_updAux hc count rest _ st'
        (heapInv_set hinv (fun hl => hc.upd _ _ _ (hinv _ (getR_mem hl)) hr')) h

theorem heapInv_updateRunningTests {P : RunningTest → Prop} {e : Event}
    (hc : StepClosed P e) {st st' : St} (hinv : HeapInv P st.heap)
    (h : updateRunningTests st e.time = .ok st') : HeapInv P st'.heap :=
  heapInv_updAux hc _ st.running st st' hinv h

theorem heapInv_updateExecutionTimes {P : RunningTest → Prop} {e : Event}
    (hc : StepClosed P e) {st st' : St} {a : Nat} (hinv : HeapInv P st.heap)
    (h : updateExecutionTimes st a e.time = .ok st') : HeapInv P st'.heap := by
  unfold updateExecutionTimes at h
  split at h
  · cases h
  · rename_i r' hr'
    cases h
    exact heapInv_set hinv (fun hl => hc.upd _ _ _ (hinv _ (getR_mem hl)) hr')

theorem heapInv_contLoopAux {P : RunningTest → Prop} {e : Event} (hc : StepClosed P e) :
    ∀ (entries : List (String × Nat)) (st st' : St), HeapInv P st.heap →
      contLoopAux e.time entries st = .ok st' → HeapInv P st'.heap
  | [], st, st', hinv, h => by
    simp only [contLoopAux] at h
    cases h; exact hinv
  | p :: rest, st, st', hinv, h => by
    simp only [contLoopAux] at h
    split at h
    · cases h
    · rename_i st1 hst1
      exact heapInv_contLoopAux hc rest st1 st' (heapInv_updateExecutionTimes hc hinv hst1) h

/-- A single-record advance keeps the heap length and the parallel flag of
the record behind the updated address. -/
theorem updateExecutionTimes_frame {st st' : St} {a : Nat} {t : Int}
    (h : updateExecutionTimes st a t = .ok st') :
    st'.heap.length = st.heap.length ∧
    (getR st' a).parallel = (getR st a).parallel := by
  unfold updateExecutionTimes at h
  split at h
  · cases h
  · rename_i r' hr'
    cases h
    refine ⟨List.length_set .., ?_⟩
    by_cases hl : a < st.heap.length
    · show ((st.heap.set a r').getD a emptyTest).parallel = _
      rw [getD_set_self hl]
      exact (updWC_frame hr').2.2.2.2.2
    · show ((st.heap.set a r').getD a emptyTest).parallel = _
      rw [List.set_eq_of_length_le (Nat.le_of_not_lt hl)]
      rfl

theorem heapInv_stopSibling {P : RunningTest → Prop} {e : Event} (hc : StepClosed P e)
    {rtAddr : Nat} {parent : String} {childAddr : Nat} :
    ∀ (fuel : Nat) (st : St) (psAddr : Nat) (st' : St), HeapInv P st.heap →
      stopSibling e rtAddr parent childAddr fuel st psAddr = .ok (some st') →
      HeapInv P st'.heap
  | 0, st, psAddr, st', hinv, h => by simp [stopSibling] at h
  | fuel + 1, st, psAddr, st', hinv, h => by
    simp only [stopSibling] at h
    split at h
    · simp at h
    · rename_i pp hpp
      split at h
      · rename_i hcond
        have hpar : (getR st rtAddr).parallel = false := by
          simp only [Bool.and_eq_true, Bool.not_eq_true'] at hcond
          exact hcond.1.2
        split at h
        · cases h
        · rename_i st1 hst1
          simp only [Except.ok.injEq, Option.some.injEq] at h
          subst h
          have hinv1 : HeapInv P st1.heap := heapInv_updateExecutionTimes hc hinv hst1
          have hpar1 : (getR st1 rtAddr).parallel = false :=
            (updateExecutionTimes_frame hst1).2.trans hpar
          have hinv2 := heapInv_modifyR st1 rtAddr
            (fun r => { r with assumedStopped := true }) hinv1
            (fun hl => hc.dormant _ (hinv1 _ (getR_mem hl)) hpar1)
          have hinv3 := heapInv_modifyR _ childAddr
            (fun r => { r with parent := some pp }) hinv2
            (fun hl => hc.setParent _ (some pp) (hinv2 _ (getR_mem hl)))
          exact heapInv_modifyR _ pp
            (fun r => { r with children := r.children ++ [childAddr] }) hinv3
            (fun hl => hc.setChildren _ _ (hinv3 _ (getR_mem hl)))
      · split at h
        · exact heapInv_stopSibling hc fuel st pp st' hinv h
        · simp at h

theorem heapInv_siblingLoop {P : RunningTest → Prop} {e : Event} (hc : StepClosed P e)
    {parent : String} {childAddr : Nat} {st : St} :
    ∀ (entries : List (String × Nat)) (st' : St), HeapInv P st.heap →
      siblingLoop e parent childAddr st entries = .ok (some st') → HeapInv P st'.heap
  | [], st', hinv, h => by simp [siblingLoop] at h
  | entry :: rest, st', hinv, h => by
    simp only [siblingLoop] at h
    split at h
    · cases h
    · rename_i st1 hst1
      simp only [Except.ok.injEq, Option.some.injEq] at h
      exact h ▸ heapInv_stopSibling hc _ st entry.2 st1 hinv hst1
    · exact heapInv_siblingLoop hc rest st' hinv h

theorem heapInv_handleRun {P : RunningTest → Prop} {e : Event} (hc : StepClosed P e)
    {st st' : St} (hinv : HeapInv P st.heap) (h : handleRun st e = .ok st') :
    HeapInv P st'.heap := by
  unfold handleRun at h
  dsimp only at h
  have hinv1 : HeapInv P (st.heap ++ [newTest e]) := by
    intro r hr
    rcases List.mem_append.mp hr with h1 | h1
    · exact hinv r h1
    · rw [List.mem_singleton.mp h1]; exact hc.isNew
  split at h
  · split at h
    · cases h
    · rename_i st1 hst1
      cases h
      have hres := heapInv_updateRunningTests hc hinv1 hst1
      exact hres
  · split at h
    · cases h
    · split at h
      · rename_i paddr hpaddr
        have hinv2 := heapInv_modifyR
          { st with heap := st.heap ++ [newTest e],
                    all := insertA st.all e.test st.heap.length }
          st.heap.length (fun r => { r with parent := some paddr }) hinv1
          (fun hl => hc.setParent _ _ (hinv1 _ (getR_mem hl)))
        have hinv3 := heapInv_modifyR
          (modifyR { st with heap := st.heap ++ [newTest e],
                             all := insertA st.all e.test st.heap.length }
            st.heap.length (fun r => { r with parent := some paddr }))
          paddr
          (fun r => { r with children := r.children ++ [st.heap.length] }) hinv2
          (fun hl => hc.setChildren _ _ (hinv2 _ (getR_mem hl)))
        split at h
        · split at h
          · cases h
          · rename_i st3 hst3
            cases h
            have hres := heapInv_updateExecutionTimes hc hinv3 hst3
            exact hres
        · cases h
      · split at h
        · cases h
        · rename_i st1 hst1
          cases h
          have hres := heapInv_siblingLoop hc _ _ hinv1 hst1
          exact hres
        · split at h
          · cases h
          · rename_i st1 hst1
            cases h
            have hres := heapInv_updateRunningTests hc hinv1 hst1
            exact hres

theorem heapInv_handlePause {P : RunningTest → Prop} {e : Event} (hc : StepClosed P e)
    {st st' : St} (hinv : HeapInv P st.heap) (h : handlePause st e = .ok st') :
    HeapInv P st'.heap := by
  unfold handlePause at h
  dsimp only at h
  split at h
  · cases h; exact hinv
  · rename_i a ha
    have hinv1 := heapInv_modifyR st a
      (fun r => { r with parallel := true, assumedStopped := false }) hinv
      (fun hl => hc.pauseFlags _ (hinv _ (getR_mem hl)))
    split at h
    · cases h
    · rename_i st2 hst2
      cases h
      have hres := heapInv_updateRunningTests hc hinv1 hst2
      exact hres

theorem heapInv_handleCont {P : RunningTest → Prop} {e : Event} (hc : StepClosed P e)
    {st st' : St} (hinv : HeapInv P st.heap) (h : handleCont st e = .ok st') :
    HeapInv P st'.heap := by
  unfold handleCont at h
  dsimp only at h
  split at h
  · cases h; exact hinv
  · rename_i a ha
    split at h
    · cases h
    · rename_i st1 hst1
      cases h
      have hinv1 : HeapInv P st1.heap := heapInv_contLoopAux hc _ st st1 hinv hst1
      have hres := heapInv_modifyR st1 a
        (fun r => { r with lastTimestamp := e.time, assumedStopped := false }) hinv1
        (fun hl => hc.contFlags _ (hinv1 _ (getR_mem hl)))
      exact hres

theorem heapInv_handleStop {P : RunningTest → Prop} {e : Event} (hc : StepClosed P e)
    {st st' : St} (hinv : HeapInv P st.heap) (h : handleStop st e = .ok st') :
    HeapInv P st'.heap := by
  unfold handleStop at h
  dsimp only at h
  split at h
  · cases h; exact hinv
  · rename_i a ha
    split at h
    · rename_i p hp
      split at h
      · cases h
      · split at h
        · split at h
          · cases h
          · rename_i st1 hst1
            cases h
            have hinv1 : HeapInv P st1.heap := heapInv_updateExecutionTimes hc hinv hst1
            have hinv2 := heapInv_modifyR st1 p
              (fun r => { r with children := ([] : List Nat) }) hinv1
              (fun hl => hc.setChildren _ _ (hinv1 _ (getR_mem hl)))
            have hres := heapInv_modifyR _ p
              (fun r => { r with lastTimestamp := e.time }) hinv2
              (fun hl => hc.setLast _ (hinv2 _ (getR_mem hl)))
            exact hres
        · split at h
          · cases h
          · rename_i st1 hst1
            cases h
            have hinv1 : HeapInv P st1.heap := by
              split at hst1
              · cases hst1; exact hinv
              · exact heapInv_updateRunningTests hc hinv hst1
            have hres := heapInv_modifyR st1 p
              (fun r => { r with children := removeFirstAddr r.children a }) hinv1
              (fun hl => hc.setChildren _ _ (hinv1 _ (getR_mem hl)))
            exact hres
    · split at h
      · cases h
      · rename_i st1 hst1
        cases h
        have hres := heapInv_updateRunningTests hc hinv hst1
        exact hres

theorem heapInv_processEvent {P : RunningTest → Prop} {e : Event} (hc : StepClosed P e)
    {st st' : St} (hinv : HeapInv P st.heap) (h : processEvent st e = .ok st') :
    HeapInv P st'.heap := by
  unfold processEvent at h
  split at h
  · cases h; exact hinv
  · split at h
    · exact heapInv_handleRun hc hinv h
    · exact heapInv_handlePause hc hinv h
    · exact heapInv_handleCont hc hinv h
    · exact heapInv_handleStop hc hinv h
    · exact heapInv_handleStop hc hinv h
    · cases h; exact hinv
    · cases h; exact hinv
    · cases h

/-! Instantiation for claim C9: no record is ever both parallel and assumed
stopped. -/

def FlagInv (r : RunningTest) : Prop := ¬(r.parallel = true ∧ r.assumedStopped = true)

theorem stepClosed_flagInv (e : Event) : StepClosed FlagInv e := by
  refine ⟨?_, ?_, ?_, ?_, ?_, ?_, ?_, ?_⟩
  · intro r c r' hP h
    rcases updWC_cases h with ⟨_, rfl⟩ | ⟨_, _, rfl⟩
    · exact hP
    · exact hP
  · simp [FlagInv, newTest]
  · intro r _; simp [FlagInv]
  · intro r _; simp [FlagInv]
  · intro r _ hpar; simp [FlagInv, hpar]
  · intro r p hP; exact hP
  · intro r cs hP; exact hP
  · intro r hP; exact hP

theorem flagInv_processEvents :
    ∀ (evts : List Event) (st st' : St), HeapInv FlagInv st.heap →
      processEvents evts st = .ok st' → HeapInv FlagInv st'.heap
  | [], st, st', hinv, h => by
    simp only [processEvents] at h
    cases h; exact hinv
  | e :: rest, st, st', hinv, h => by
    simp only [processEvents] at h
    split at h
    · cases h
    · rename_i st1 hst1
      exact flagInv_processEvents rest st1 st'
        (heapInv_processEvent (stepClosed_flagInv e) hinv hst1) h

/-! Instantiation for claim C2: total time dominates adjusted time, and no
record clock is ahead of the last processed event, provided event times are
non-decreasing. -/

def TimeInv (T : Int) (r : RunningTest) : Prop :=
  r.adjustedTime ≤ r.totalTime ∧ r.lastTimestamp ≤ T

theorem stepClosed_timeInv (e : Event) : StepClosed (TimeInv e.time) e := by
  refine ⟨?_, ?_, ?_, ?_, ?_, ?_, ?_, ?_⟩
  · intro r c r' hP h
    rcases updWC_cases h with ⟨_, rfl⟩ | ⟨_, hc0, rfl⟩
    · exact hP
    · have hd : (0 : Int) ≤ e.time - r.lastTimestamp := by
        have := hP.2; omega
      have hcpos : (0 : Int) ≤ (c : Int) := Int.ofNat_nonneg c
      have hq : (e.time - r.lastTimestamp).tdiv (c : Int) ≤ e.time - r.lastTimestamp := by
        rw [Int.tdiv_eq_ediv hd hcpos]
        exact Int.ediv_le_self _ hd
      exact ⟨Int.add_le_add hP.1 hq, le_refl _⟩
  · exact ⟨le_refl 0, le_refl e.time⟩
  · intro r hP; exact hP
  · intro r hP; exact ⟨hP.1, le_refl _⟩
  · intro r hP _; exact hP
  · intro r p hP; exact hP
  · intro r cs hP; exact hP
  · intro r hP; exact ⟨hP.1, le_refl _⟩

theorem timeInv_mono {T T' : Int} (hTT : T ≤ T') {r : RunningTest}
    (h : TimeInv T r) : TimeInv T' r :=
  ⟨h.1, le_trans h.2 hTT⟩

theorem timeInv_processEvents :
    ∀ (evts : List Event) (st st' : St) (T : Int),
      HeapInv (TimeInv T) st.heap →
      (∀ e' ∈ evts.head?, T ≤ e'.time) →
      List.Chain' (fun a b => a.time ≤ b.time) evts →
      processEvents evts st = .ok st' → ∃ T', HeapInv (TimeInv T') st'.heap
  | [], st, st', T, hinv, _, _, h => by
    simp only [processEvents] at h
    cases h; exact ⟨T, hinv⟩
  | e :: rest, st, st', T, hinv, hhead, hchain, h => by
    simp only [processEvents] at h
    split at h
    · cases h
    · rename_i st1 hst1
      have hTe : T ≤ e.time := hhead e (by simp)
      have hinvE : HeapInv (TimeInv e.time) st.heap :=
        fun r hr => timeInv_mono hTe (hinv r hr)
      have hinv1 : HeapInv (TimeInv e.time) st1.heap :=
        heapInv_processEvent (stepClosed_timeInv e) hinvE hst1
      have hchain' := List.chain'_cons'.mp hchain
      exact timeInv_processEvents rest st1 st' e.time hinv1 hchain'.1 hchain'.2 h

/-! Pointwise characterisation of the uniform advance, for claim C1. -/

/-- The record produced by a non-dormant update with a nonzero count. -/
def advancedBy (t : Int) (count : Nat) (r : RunningTest) : RunningTest :=
  { r with
    adjustedTime := r.adjustedTime + (t - r.lastTimestamp).tdiv (count : Int),
    totalTime := r.totalTime + (t - r.lastTimestamp),
    lastTimestamp := t }

theorem updWC_ok_of_live {r : RunningTest} {t : Int} {count : Nat}
    (hnd : r.assumedStopped = false) (hc : count ≠ 0) :
    updateExecutionTimesWithCount r t count = .ok (advancedBy t count r) := by
  unfold updateExecutionTimesWithCount advancedBy
  rw [hnd]
  simp [hc]

/-- Running the bulk advance over pairwise distinct, in-bounds, non-dormant
entries succeeds and rewrites exactly the addressed records to their
advanced versions, leaving every other address and the rest of the state
unchanged. -/
theorem updAux_pointwise (t : Int) (count : Nat) (hc : count ≠ 0) :
    ∀ (entries : List (String × Nat)) (st : St),
      (∀ p ∈ entries, p.2 < st.heap.length) →
      (entries.map Prod.snd).Nodup →
      (∀ p ∈ entries, (getR st p.2).assumedStopped = false) →
      ∃ st', updateRunningTestsAux t count entries st = .ok st' ∧
        st'.heap.length = st.heap.length ∧
        st'.all = st.all ∧ st'.running = st.running ∧ st'.warnings = st.warnings ∧
        (∀ b, b ∉ entries.map Prod.snd → getR st' b = getR st b) ∧
        (∀ p ∈ entries, getR st' p.2 = advancedBy t count (getR st p.2))
  | [], st, _, _, _ => by
    refine ⟨st, by simp [updateRunningTestsAux], rfl, rfl, rfl, rfl, fun b _ => rfl, by simp⟩
  | p :: rest, st, hbound, hnodup, hlive => by
    have hb : p.2 < st.heap.length := hbound p (by simp)
    have hl : (getR st p.2).assumedStopped = false := hlive p (by simp)
    have hnd : p.2 ∉ rest.map Prod.snd := by
      simp only [List.map_cons, List.nodup_cons] at hnodup
      exact hnodup.1
    set st1 : St := { st with heap := st.heap.set p.2 (advancedBy t count (getR st p.2)) } with hst1
    have hget1 : ∀ b, b ≠ p.2 → getR st1 b = getR st b := by
      intro b hbne
      show (st.heap.set p.2 _).getD b emptyTest = st.heap.getD b emptyTest
      exact getD_set_ne (fun hpb => hbne hpb.symm) _ _
    have hgetp : getR st1 p.2 = advancedBy t count (getR st p.2) := by
      show (st.heap.set p.2 _).getD p.2 emptyTest = _
      exact getD_set_self hb _ _
    have hlen1 : st1.heap.length = st.heap.length := List.length_set ..
    obtain ⟨st', hrun, hlen, hall, hrunning, hwarn, hother, hpt⟩ :=
      updAux_pointwise t count hc rest st1
        (fun q hq => hlen1 ▸ hbound q (List.mem_cons_of_mem _ hq))
        (by simp only [List.map_cons, List.nodup_cons] at hnodup; exact hnodup.2)
        (fun q hq => by
          rw [hget1 q.2 (fun hq2 => hnd (hq2 ▸ List.mem_map_of_mem Prod.snd hq))]
          exact hlive q (List.mem_cons_of_mem _ hq))
    refine ⟨st', ?_, hlen.trans hlen1, hall, hrunning, hwarn, ?_, ?_⟩
    · simp only [updateRunningTestsAux, updWC_ok_of_live hl hc]
      exact hrun
    · intro b hbmem
      simp only [List.map_cons, List.mem_cons, not_or] at hbmem
      rw [hother b (fun hmem => hbmem.2 hmem), hget1 b (fun hb2 => hbmem.1 hb2)]
    · intro q hq
      rcases List.mem_cons.mp hq with rfl | hq2
      · rw [hother q.2 hnd, hgetp]
      · rw [hpt q hq2, hget1 q.2
          (fun hq2eq => hnd (hq2eq ▸ List.mem_map_of_mem Prod.snd hq2))]

/-- Sum bookkeeping: if every mapped value moves by the same step, the sum
moves by the length times that step. -/
theorem sum_map_shift {α : Type} (q : Int) :
    ∀ (l : List α) (f g : α → Int), (∀ x ∈ l, g x = f x + q) →
      (l.map g).sum = (l.map f).sum + l.length * q
  | [], _, _, _ => by simp
  | x :: rest, f, g, h => by
    simp only [List.map_cons, List.sum_cons, List.length_cons]
    rw [sum_map_shift q rest f g (fun y hy => h y (List.mem_cons_of_mem _ hy)),
      h x (by simp)]
    push_cast
    ring

/-- Extract the state of a successful outcome (initial state on failure);
used to state results without existential quantifiers. -/
def stOf : Except GoFatal St → St
  | .ok st => st
  | .error _ => initSt

/-- C1: For every uniform advance over a fixed set of active, non-dormant
tests all sharing the same lastTimestamp, over an interval of length delta
(event time minus that lastTimestamp), the sum of the adjustedTime
increments given to those tests equals delta, up to an integer-division
remainder bounded by count minus one time units. -/
theorem c1_uniform_advance_conserves_elapsed (st : St) (t t0 : Int)
    (hne : st.running ≠ [])
    (hnd : ∀ p ∈ st.running, (getR st p.2).assumedStopped = false)
    (hsame : ∀ p ∈ st.running, (getR st p.2).lastTimestamp = t0)
    (ht : t0 ≤ t)
    (hnodup : (st.running.map Prod.snd).Nodup)
    (hbound : ∀ p ∈ st.running, p.2 < st.heap.length) :
    updateRunningTests st t = .ok (stOf (updateRunningTests st t)) ∧
    (st.running.map (fun p => (getR (stOf (updateRunningTests st t)) p.2).adjustedTime)).sum =
      (st.running.map (fun p => (getR st p.2).adjustedTime)).sum
        + ((t - t0) - (t - t0).tmod (st.running.length : Int)) ∧
    0 ≤ (t - t0).tmod (st.running.length : Int) ∧
    (t - t0).tmod (st.running.length : Int) ≤ (st.running.length : Int) - 1 := by
  have hcount : nonDormantRunningCount st = st.running.length :=
    List.countP_eq_length.mpr (fun p hp => by
      simp [getR] at hnd ⊢
      exact hnd p.1 p.2 hp)
  have hlenpos : 0 < st.running.length := List.length_pos.mpr hne
  have hcne : st.running.length ≠ 0 := Nat.pos_iff_ne_zero.mp hlenpos
  obtain ⟨st', hrun, _, _, _, _, _, hpt⟩ :=
    updAux_pointwise t st.running.length hcne st.running st hbound hnodup hnd
  have hmain : updateRunningTests st t = .ok st' := by
    unfold updateRunningTests
    rw [hcount]
    exact hrun
  have hstOf : stOf (updateRunningTests st t) = st' := by rw [hmain]; rfl
  have hΔ : (0 : Int) ≤ t - t0 := by omega
  have hsum : (st.running.map (fun p => (getR st' p.2).adjustedTime)).sum =
      (st.running.map (fun p => (getR st p.2).adjustedTime)).sum
        + st.running.length * ((t - t0).tdiv (st.running.length : Int)) := by
    refine sum_map_shift _ st.running _ _ (fun p hp => ?_)
    rw [hpt p hp]
    unfold advancedBy
    rw [hsame p hp]
  have hdef := Int.tmod_def (t - t0) (st.running.length : Int)
  have hmod0 : 0 ≤ (t - t0).tmod (st.running.length : Int) :=
    Int.tmod_nonneg _ hΔ
  have hmodlt : (t - t0).tmod (st.running.length : Int) < (st.running.length : Int) :=
    Int.tmod_lt_of_pos _ (by exact_mod_cast hlenpos)
  refine ⟨hstOf ▸ hmain, ?_, hmod0, by omega⟩
  rw [hstOf, hsum]
  linarith [hdef]

/-! Membership in a successful report. -/

theorem reportLinesAux_mem {st : St} :
    ∀ (ks : List String) (lines : List ReportLine), reportLinesAux st ks = .ok lines →
      ∀ k ∈ ks, ∃ line, reportLineFor st k = .ok line ∧ line ∈ lines
  | [], lines, h, k, hk => by simp at hk
  | k0 :: rest, lines, h, k, hk => by
    simp only [reportLinesAux] at h
    split at h
    · cases h
    · rename_i line0 hline0
      split at h
      · cases h
      · rename_i rest' hrest
        cases h
        rcases List.mem_cons.mp hk with rfl | hk2
        · exact ⟨line0, hline0, by simp⟩
        · obtain ⟨line, hl, hm⟩ := reportLinesAux_mem rest rest' hrest k hk2
          exact ⟨line, hl, by simp [hm]⟩

/-! Named scenario inputs used by the scenario claims, all in one package
with nanosecond timestamps. -/

def pkgP : String := "p"
def tA : String := "A"
def tB : String := "B"
def tC : String := "C"
def tD : String := "D"
def tP : String := "P"
def tPa : String := "P/a"
def tPa2 : String := "P/a2"
def tAb : String := "A/b"
def tX : String := "X"

def ev (t : Int) (a : GoAction) (n : String) : Event :=
  { time := t, action := a, test := n, pkg := pkgP }

/-- Scenario B of the specification: two fully concurrent top-level tests
over ten milliseconds. -/
def scenarioB : List Event :=
  [ev 0 .run tA, ev 0 .run tB, ev 10000000 .pass tA, ev 10000000 .pass tB]

/-- Scenario C of the specification: one serial subtest under one parent. -/
def scenarioC : List Event :=
  [ev 0 .run tP, ev 5000000 .run tPa, ev 15000000 .pass tPa, ev 20000000 .pass tP]

/-- Scenario E of the specification: a second subtest starts with no finish
event observed for its serial sibling. -/
def scenarioE : List Event :=
  [ev 0 .run tP, ev 0 .run tPa, ev 10000000 .run tPa2]

/-- A single run event for a subtest with no resolvable ancestor. -/
def scenarioOrphan : List Event := [ev 0 .run tAb]

/-- Four concurrent tests, three finishing early: the surviving test ends
with adjusted two milliseconds and total 7.4 milliseconds. -/
def scenarioRatio : List Event :=
  [ev 0 .run tA, ev 0 .run tB, ev 0 .run tC, ev 0 .run tD,
   ev 7200000 .pass tB, ev 7200000 .pass tC, ev 7200000 .pass tD,
   ev 7400000 .pass tA]

/-- Three concurrent tests all finishing at 0.9 milliseconds: every adjusted
time rounds to zero while every total rounds to one millisecond. -/
def scenarioTiny : List Event :=
  [ev 0 .run tA, ev 0 .run tB, ev 0 .run tC,
   ev 900000 .pass tA, ev 900000 .pass tB, ev 900000 .pass tC]

/-- A paused and resumed test among two concurrent ones. -/
def scenarioPauseCont : List Event :=
  [ev 0 .run tA, ev 0 .run tB, ev 5000000 .pause tA, ev 7000000 .cont tA,
   ev 10000000 .pass tA, ev 10000000 .pass tB]

instance exceptDecEq {ε α : Type} [DecidableEq ε] [DecidableEq α] :
    DecidableEq (Except ε α) := fun a b =>
  match a, b with
  | .ok x, .ok y =>
    if h : x = y then .isTrue (by rw [h])
    else .isFalse (by intro hc; cases hc; exact h rfl)
  | .error x, .error y =>
    if h : x = y then .isTrue (by rw [h])
    else .isFalse (by intro hc; cases hc; exact h rfl)
  | .ok _, .error _ => .isFalse (by intro hc; cases hc)
  | .error _, .ok _ => .isFalse (by intro hc; cases hc)

/-- The stream processed to completion succeeded. -/
abbrev runOk (evts : List Event) : Prop :=
  processEvents evts initSt = .ok (stOf (processEvents evts initSt))

/-- The record registered under a name in the final state of a stream. -/
def finalRecord (evts : List Event) (k : String) : Option RunningTest :=
  (lookupA (stOf (processEvents evts initSt)).all k).map
    (fun a => getR (stOf (processEvents evts initSt)) a)

/-- The running-set binding of a name in the final state of a stream. -/
def finalRunning (evts : List Event) (k : String) : Option Nat :=
  lookupA (stOf (processEvents evts initSt)).running k

/-! Claim theorems. -/

/-- C2: For every test record, at every point in processing (assuming events
arrive with non-decreasing timestamps), totalTime is at least adjustedTime. -/
theorem c2_total_dominates_adjusted (evts : List Event)
    (hmono : List.Chain' (fun a b => a.time ≤ b.time) evts) (st : St)
    (h : processEvents evts initSt = .ok st) :
    ∀ r ∈ st.heap, r.adjustedTime ≤ r.totalTime := by
  cases evts with
  | nil =>
    simp only [processEvents] at h
    cases h
    intro r hr
    simp [initSt] at hr
  | cons e rest =>
    have hinit : HeapInv (TimeInv e.time) initSt.heap := by
      intro r hr; simp [initSt] at hr
    obtain ⟨T', hT'⟩ := timeInv_processEvents (e :: rest) initSt st e.time hinit
      (by intro e' he'; simp only [List.head?_cons, Option.mem_some_iff] at he'; rw [he'])
      hmono h
    exact fun r hr => (hT' r hr).1

def c2WitSt : St := stOf (processEvents scenarioC initSt)

theorem c2_witness : (getR c2WitSt 0).adjustedTime ≤ (getR c2WitSt 0).totalTime :=
  c2_total_dominates_adjusted scenarioC
    (by norm_num [scenarioC, ev, List.chain'_cons])
    c2WitSt rfl (getR c2WitSt 0) (by decide)

/-- C9: In every state reachable by processing any event stream, no test
record is simultaneously marked parallel and assumed stopped: the dormancy
inference never fires on a paused (parallel) record. -/
theorem c9_parallel_never_assumed_stopped (evts : List Event) (st : St)
    (h : processEvents evts initSt = .ok st) :
    ∀ r ∈ st.heap, ¬(r.parallel = true ∧ r.assumedStopped = true) :=
  flagInv_processEvents evts initSt st (by intro r hr; simp [initSt] at hr) h

def c9WitSt : St := stOf (processEvents scenarioPauseCont initSt)

theorem c9_witness : ¬((getR c9WitSt 0).parallel = true ∧ (getR c9WitSt 0).assumedStopped = true) :=
  c9_parallel_never_assumed_stopped scenarioPauseCont c9WitSt rfl (getR c9WitSt 0) (by decide)

/-- C3 counterexample: on the stream of Scenario B the claimed outcome
(adjusted ten milliseconds for both tests alongside total ten milliseconds)
is false: the ten shared milliseconds are split, five to each test. -/
theorem c3_counterexample :
    runOk scenarioB ∧
    ¬((finalRecord scenarioB tA).map RunningTest.adjustedTime = some 10000000 ∧
      (finalRecord scenarioB tB).map RunningTest.adjustedTime = some 10000000 ∧
      (finalRecord scenarioB tA).map RunningTest.totalTime = some 10000000 ∧
      (finalRecord scenarioB tB).map RunningTest.totalTime = some 10000000) := by
  decide

/-- C3 amended: for the input stream run A at t0, run B at t0, finish A at
t10, finish B at t10, each test ends with adjustedTime five milliseconds
(its fair half of the shared interval) and totalTime ten milliseconds. -/
theorem c3_amended_fair_split :
    runOk scenarioB ∧
    (finalRecord scenarioB tA).map RunningTest.adjustedTime = some 5000000 ∧
    (finalRecord scenarioB tB).map RunningTest.adjustedTime = some 5000000 ∧
    (finalRecord scenarioB tA).map RunningTest.totalTime = some 10000000 ∧
    (finalRecord scenarioB tB).map RunningTest.totalTime = some 10000000 := by
  decide

/-- C4: for the input stream run P at 0, run P/a at 5, finish P/a at 15,
finish P at 20 (milliseconds), the parent accumulates ten adjusted
milliseconds over its two open intervals and the child ten. -/
theorem c4_serial_subtest_scenario :
    runOk scenarioC ∧
    (finalRecord scenarioC tP).map RunningTest.adjustedTime = some 10000000 ∧
    (finalRecord scenarioC tPa).map RunningTest.adjustedTime = some 10000000 := by
  decide

/-- C5: after run P at 0, run P/a at 0, run P/a2 at 10 with no finish for
P/a, the record of P/a is assumed stopped with both clocks frozen at ten
milliseconds (and a dormant record is never advanced by the attribution
engine), while P/a2 is in the running set with its clock starting at ten
milliseconds. -/
theorem c5_sibling_inference_scenario :
    (runOk scenarioE ∧
     (finalRecord scenarioE tPa).map RunningTest.assumedStopped = some true ∧
     (finalRecord scenarioE tPa).map RunningTest.adjustedTime = some 10000000 ∧
     (finalRecord scenarioE tPa).map RunningTest.totalTime = some 10000000 ∧
     finalRunning scenarioE tPa2 = some 2 ∧
     (finalRecord scenarioE tPa2).map RunningTest.assumedStopped = some false ∧
     (finalRecord scenarioE tPa2).map RunningTest.lastTimestamp = some 10000000) ∧
    ∀ (t : Int) (c : Nat),
      (finalRecord scenarioE tPa).map (fun r => updateExecutionTimesWithCount r t c) =
      (finalRecord scenarioE tPa).map Except.ok := by
  refine ⟨by decide, ?_⟩
  intro t c
  rfl

/-- C6: a run event for the subtest A/b, whose literal parent A is unknown
and for which the longest-prefix search finds no ancestor either, does not
fail fatally: the non-empty regexp capture makes the fatal emptiness check
unreachable, and the test is inserted into the running set as if top
level. -/
theorem c6_unresolvable_parent_not_fatal :
    isSubTest tAb = some tA ∧
    longestSlashAncestor [tAb] tAb = none ∧
    processEvents scenarioOrphan initSt = .ok
      { heap := [{ name := tAb, pkg := pkgP, lastTimestamp := 0, adjustedTime := 0,
                   totalTime := 0, children := [], parent := none,
                   assumedStopped := false, parallel := false }],
        all := [(tAb, 0)], running := [(tAb, 0)], warnings := [] } := by
  decide

/-- C7 counterexample: in the final state of scenarioRatio the report line
of test A carries the factor three, computed as the truncated quotient of
the rounded times (seven over two milliseconds), although the nearest
integer to total over adjusted (7.4 over 2) is four, not three. -/
theorem c7_counterexample :
    runOk scenarioRatio ∧
    reportLines (stOf (processEvents scenarioRatio initSt)) = .ok
      [.withTotal pkgP tA 2000000 7000000 3,
       .withTotal pkgP tD 2000000 7000000 3,
       .withTotal pkgP tC 2000000 7000000 3,
       .withTotal pkgP tB 2000000 7000000 3] ∧
    (finalRecord scenarioRatio tA).map RunningTest.adjustedTime = some 2000000 ∧
    (finalRecord scenarioRatio tA).map RunningTest.totalTime = some 7400000 ∧
    ((7400000 : Int) - 3 * 2000000).natAbs > ((7400000 : Int) - 4 * 2000000).natAbs := by
  decide

/-- C7 amended: for every selected test whose two times differ after
rounding to milliseconds, the emitted line carries both rounded times and
the factor computed as the truncating integer division of the rounded total
by the rounded adjusted time; when the rounded times agree only the single
time is emitted. -/
theorem c7_amended_truncated_factor (st : St) (k : String) (lines : List ReportLine)
    (h : reportLines st = .ok lines) (hk : k ∈ selectedTestNames st) :
    (durRound (recOf st k).adjustedTime msNanos ≠ durRound (recOf st k).totalTime msNanos →
      ReportLine.withTotal (recOf st k).pkg (recOf st k).name
        (durRound (recOf st k).adjustedTime msNanos)
        (durRound (recOf st k).totalTime msNanos)
        ((durRound (recOf st k).totalTime msNanos).tdiv
          (durRound (recOf st k).adjustedTime msNanos)) ∈ lines) ∧
    (durRound (recOf st k).adjustedTime msNanos = durRound (recOf st k).totalTime msNanos →
      ReportLine.single (recOf st k).pkg (recOf st k).name
        (durRound (recOf st k).adjustedTime msNanos) ∈ lines) := by
  obtain ⟨line, hline, hmem⟩ := reportLinesAux_mem _ lines h k hk
  unfold reportLineFor at hline
  dsimp only at hline
  constructor
  · intro hne
    rw [if_neg hne] at hline
    unfold goDiv at hline
    split at hline
    · cases hline
    · rename_i q hq
      cases hline
      split at hq
      · cases hq
      · cases hq
        exact hmem
  · intro heq
    rw [if_pos heq] at hline
    cases hline
    exact hmem

def c7WitSt : St := stOf (processEvents scenarioRatio initSt)

theorem c7_amended_witness :
    ReportLine.withTotal (recOf c7WitSt tA).pkg (recOf c7WitSt tA).name
      (durRound (recOf c7WitSt tA).adjustedTime msNanos)
      (durRound (recOf c7WitSt tA).totalTime msNanos)
      ((durRound (recOf c7WitSt tA).totalTime msNanos).tdiv
        (durRound (recOf c7WitSt tA).adjustedTime msNanos)) ∈
      [ReportLine.withTotal pkgP tA 2000000 7000000 3,
       ReportLine.withTotal pkgP tD 2000000 7000000 3,
       ReportLine.withTotal pkgP tC 2000000 7000000 3,
       ReportLine.withTotal pkgP tB 2000000 7000000 3] :=
  (c7_amended_truncated_factor c7WitSt tA
    [ReportLine.withTotal pkgP tA 2000000 7000000 3,
     ReportLine.withTotal pkgP tD 2000000 7000000 3,
     ReportLine.withTotal pkgP tC 2000000 7000000 3,
     ReportLine.withTotal pkgP tB 2000000 7000000 3]
    (by decide) (by decide)).1 (by decide)

/-- C8: a pause or finish event for a test missing from the running set,
or a continue event for a test missing from the registry of all tests,
only appends one warning line and leaves the heap and both registries
untouched. -/
theorem c8_unknown_test_events_drop (st : St) (e : Event) :
    (lookupA st.running e.test = none →
      handlePause st e = .ok { st with warnings :=
        st.warnings ++ ["WARNING: Paused test not found in running tests: " ++ e.test] } ∧
      handleStop st e = .ok { st with warnings :=
        st.warnings ++ ["WARNING: Stopped test not found in running tests: " ++ e.test] }) ∧
    (lookupA st.all e.test = none →
      handleCont st e = .ok { st with warnings :=
        st.warnings ++ ["WARNING: Continued test not found in tests: " ++ e.test] }) := by
  refine ⟨fun h => ⟨?_, ?_⟩, fun h => ?_⟩
  · unfold handlePause
    rw [h]
  · unfold handleStop
    rw [h]
  · unfold handleCont
    rw [h]

theorem c8_witness :
    handlePause initSt (ev 3 .pause tX) = .ok { initSt with warnings :=
      initSt.warnings ++ ["WARNING: Paused test not found in running tests: " ++ tX] } ∧
    handleStop initSt (ev 3 .pass tX) = .ok { initSt with warnings :=
      initSt.warnings ++ ["WARNING: Stopped test not found in running tests: " ++ tX] } ∧
    handleCont initSt (ev 3 .cont tX) = .ok { initSt with warnings :=
      initSt.warnings ++ ["WARNING: Continued test not found in tests: " ++ tX] } :=
  ⟨((c8_unknown_test_events_drop initSt (ev 3 .pause tX)).1 rfl).1,
   ((c8_unknown_test_events_drop initSt (ev 3 .pass tX)).1 rfl).2,
   (c8_unknown_test_events_drop initSt (ev 3 .cont tX)).2 rfl⟩

/-- C10: a reachable final state exists (three concurrent tests all lasting
0.9 milliseconds) in which a selected test's adjusted time rounds to zero
milliseconds while its total rounds to one, and the report generator's
factor computation divides by zero. -/
theorem c10_report_division_by_zero_reachable :
    runOk scenarioTiny ∧
    reportLines (stOf (processEvents scenarioTiny initSt)) = .error .divideByZero ∧
    (finalRecord scenarioTiny tA).map (fun r => durRound r.adjustedTime msNanos) = some 0 ∧
    (finalRecord scenarioTiny tA).map (fun r => durRound r.totalTime msNanos) = some 1000000 ∧
    tA ∈ selectedTestNames (stOf (processEvents scenarioTiny initSt)) := by
  decide

def c1WitSt : St :=
  { heap := [
      { name := tA, pkg := pkgP, lastTimestamp := 0, adjustedTime := 0, totalTime := 0,
        children := [], parent := none, assumedStopped := false, parallel := false },
      { name := tB, pkg := pkgP, lastTimestamp := 0, adjustedTime := 0, totalTime := 0,
        children := [], parent := none, assumedStopped := false, parallel := false }],
    all := [(tA, 0), (tB, 1)], running := [(tA, 0), (tB, 1)], warnings := [] }

theorem c1_witness :
    updateRunningTests c1WitSt 5 = .ok (stOf (updateRunningTests c1WitSt 5)) ∧
    (c1WitSt.running.map (fun p => (getR (stOf (updateRunningTests c1WitSt 5)) p.2).adjustedTime)).sum =
      (c1WitSt.running.map (fun p => (getR c1WitSt p.2).adjustedTime)).sum
        + ((5 - 0) - Int.tmod (5 - 0) (c1WitSt.running.length : Int)) ∧
    0 ≤ Int.tmod (5 - 0) (c1WitSt.running.length : Int) ∧
    Int.tmod (5 - 0) (c1WitSt.running.length : Int) ≤ (c1WitSt.running.length : Int) - 1 :=
  c1_uniform_advance_conserves_elapsed c1WitSt 5 0 (by decide) (by decide) (by decide)
    (by decide) (by decide) (by decide)
